import Mathlib

/-!
Verification development for the `cli` package (file `cli.go`): a declarative
command-line option/subcommand binder.  The Go source is shallowly embedded
below: pure helpers (`ToSnakeCase`, `structUnwrap`) become Lean functions;
the stateful resolution in `Cmd.Init` / `Cmd.Execute` is embedded as explicit
state passing over lists of options, with the environment passed as a function
`String → Option String` and every setter invocation recorded in a write trace.
The behaviour of the Go standard-library collaborators that `cli.go` calls with
fixed arguments is embedded as well, following their documented semantics:
`regexp.ReplaceAllString` for the two concrete patterns, `strconv.ParseBool`,
and `flag.FlagSet` (`Var`, `Parse`) in `flag.ExitOnError` mode, where a parse
failure terminates the process (`os.Exit(2)`, or `os.Exit(0)` for `ErrHelp`)
and a duplicate registration panics.
-/

/-! ### Character classes of the regex patterns

`matchFirstCap = (.)([A-Z][a-z]+)` and `matchAllCap = ([a-z0-9])([A-Z])`.
The classes `[a-z]`, `[A-Z]`, `[0-9]` are the ASCII ranges. -/

def isLowerAZ (c : Char) : Bool := 97 ≤ c.toNat && c.toNat ≤ 122

def isUpperAZ (c : Char) : Bool := 65 ≤ c.toNat && c.toNat ≤ 90

def isDigit09 (c : Char) : Bool := 48 ≤ c.toNat && c.toNat ≤ 57

def isAlnumAZ (c : Char) : Bool := isLowerAZ c || isUpperAZ c || isDigit09 c

def allAlnum (s : List Char) : Bool := s.all isAlnumAZ

/-- Embeds `matchFirstCap.ReplaceAllString(str, "${1}-${2}")` with
`matchFirstCap = regexp.MustCompile("(.)([A-Z][a-z]+)")`: repeatedly find the
leftmost occurrence of any character followed by an uppercase letter and a
maximal nonempty run of lowercase letters, insert `-` between the first
character and the uppercase letter, and continue scanning after the match.
The `Nat` argument is termination fuel only: every scan step consumes at
least one character, so any fuel of at least the list's length yields the
replacement (see `replFirstCapF_fuel`). -/
def replFirstCapF : Nat → List Char → List Char
  | 0, s => s
  | fuel + 1, c :: u :: l :: rest =>
    if isUpperAZ u && isLowerAZ l then
      c :: '-' :: u :: ((l :: rest).takeWhile isLowerAZ ++
        replFirstCapF fuel ((l :: rest).dropWhile isLowerAZ))
    else
      c :: replFirstCapF fuel (u :: l :: rest)
  | _, s => s

/-- The `matchFirstCap` replacement pass, with sufficient fuel. -/
def replFirstCap (s : List Char) : List Char :=
  replFirstCapF s.length s

/-- Embeds `matchAllCap.ReplaceAllString(snake, "${1}-${2}")` with
`matchAllCap = regexp.MustCompile("([a-z0-9])([A-Z])")`: insert `-` between
every lowercase-or-digit character and a directly following uppercase letter,
scanning left to right without overlap. -/
def replAllCap : List Char → List Char
  | a :: b :: rest =>
    if (isLowerAZ a || isDigit09 a) && isUpperAZ b then
      a :: '-' :: b :: replAllCap rest
    else
      a :: replAllCap (b :: rest)
  | s => s

/-- The list-level composition of the two regex passes followed by
`strings.ToLower` (ASCII lowering; all characters involved are ASCII). -/
def toSnakeList (s : List Char) : List Char :=
  (replAllCap (replFirstCap s)).map Char.toLower

/-- Embeds `ToSnakeCase` from `cli.go`. -/
def ToSnakeCase (s : String) : String :=
  String.mk (toSnakeList s.data)

/-! ### Specification-side name derivation (for the refinement claim)

The spec describes the derived name as: insert a separator before each
lowercase/digit-to-uppercase transition, and before an uppercase letter that
begins a run of lowercase letters and follows another uppercase letter; then
lowercase everything. -/

/-- Modelled from the specification wording, not from the source: a separator
belongs between adjacent characters `a` and `b` (with `rest` following `b`)
iff `a` is lowercase-or-digit and `b` uppercase, or `a` and `b` are both
uppercase and `b` begins a run of lowercase letters. -/
def sepHere (a b : Char) (rest : List Char) : Bool :=
  ((isLowerAZ a || isDigit09 a) && isUpperAZ b) ||
    (isUpperAZ a && isUpperAZ b &&
      (match rest with
       | c :: _ => isLowerAZ c
       | [] => false))

/-- Specification-side separator insertion: walk the string and insert `-`
exactly at the positions described by `sepHere`. -/
def insertSeps : List Char → List Char
  | a :: b :: rest =>
    if sepHere a b rest then a :: '-' :: insertSeps (b :: rest)
    else a :: insertSeps (b :: rest)
  | s => s

/-- Specification-side name derivation: separator insertion then lowering. -/
def snakeSpec (s : List Char) : List Char :=
  (insertSeps s).map Char.toLower

/-! ### Options -/

/-- Embeds `optState` with constants `OptStateUntouched`, `OptStateFlagPassed`,
`OptStateEnvPassed`. -/
inductive optState where
  | Untouched
  | FlagPassed
  | EnvPassed
deriving DecidableEq, Repr

/-- Embeds the `Opt` struct.  The Go `SetFunc` closure writes the string value
into the owning record's field storage; here every such write is recorded in
the surrounding write trace instead, keyed by the option's (unique after
registration) name. -/
structure Opt where
  Name : String
  Description : String
  Value : String
  State : optState
  Required : Bool
deriving DecidableEq, Repr

/-- Embeds `Opt.Set` (the `flag.Value` interface method invoked by the flag
parser on a match): call `SetFunc`, store the value, mark `FlagPassed`.
It always returns `nil` in Go, so no error case is modelled. -/
def Opt.Set (o : Opt) (flagval : String) : Opt :=
  { o with Value := flagval, State := .FlagPassed }

/-- Source of a write performed through an option's `SetFunc`. -/
inductive WriteSrc where
  | flagMatch
  | envFallback
deriving DecidableEq, Repr

/-- One invocation of an option's `SetFunc`: which field storage (identified by
the option name), what value, and from which resolution phase. -/
structure Write where
  name : String
  value : String
  src : WriteSrc
deriving DecidableEq, Repr

/-! ### Field discovery (the reflection walk) -/

/-- The per-leaf data `Cmd.Init` reads off a discovered field: `Field.Name`,
`Field.Tag.Get("desc")` and `Field.Tag.Lookup("required")`. -/
structure LeafInfo where
  fieldName : String
  descTag : String
  requiredTag : Option String
deriving DecidableEq, Repr

/-- A field of an options record: either a leaf (any non-struct kind) or a
nested record, which `structUnwrap` recursively unwraps. -/
inductive RField where
  | leaf (info : LeafInfo)
  | nested (name : String) (fields : List RField)

mutual

/-- Embeds `structUnwrap`: walk the record's fields in declaration order; a
struct-kind field is recursively unwrapped and its leaves spliced in place,
any other field is appended as a leaf. -/
def structUnwrap : List RField → List LeafInfo
  | [] => []
  | f :: rest => unwrapField f ++ structUnwrap rest

/-- One iteration of the `structUnwrap` loop body: the branch on
`item.Field.Type.Kind() == reflect.Struct`. -/
def unwrapField : RField → List LeafInfo
  | .leaf i => [i]
  | .nested _ fs => structUnwrap fs

end

/-- Embeds `reflectStruct`: unwrap the record pointed to by `cmd.Opts`. -/
def reflectStruct (rec : List RField) : List LeafInfo :=
  structUnwrap rec

/-- Specification-side leaf enumeration of a single field, written as the spec
describes field discovery: a leaf contributes itself; a nested record
contributes its fields' leaves depth-first in declaration order. -/
def leavesOf : RField → List LeafInfo
  | .leaf i => [i]
  | .nested _ [] => []
  | .nested n (f :: fs) => leavesOf f ++ leavesOf (.nested n fs)

/-- Number of leaf fields of one field. -/
def countLeavesF : RField → Nat
  | .leaf _ => 1
  | .nested _ [] => 0
  | .nested n (f :: fs) => countLeavesF f + countLeavesF (.nested n fs)

/-! ### strconv.ParseBool -/

/-- Embeds `strconv.ParseBool`: accepts exactly `1 t T TRUE true True` and
`0 f F FALSE false False`; anything else is a syntax error (`none`). -/
def parseBool (str : String) : Option Bool :=
  if str = "1" || str = "t" || str = "T" || str = "TRUE" || str = "true" || str = "True" then
    some true
  else if str = "0" || str = "f" || str = "F" || str = "FALSE" || str = "false" || str = "False" then
    some false
  else
    none

/-! ### The flag package, as used by `Cmd.Init`

`Cmd.Init` creates `flag.NewFlagSet(cmd.Name, flag.ExitOnError)` and registers
every option with `flags.Var(opt, opt.Name, opt.Description)`.  `Var` panics
if the name is already registered ("flag redefined").  `Parse` recognizes
`-name`/`--name` tokens, takes the value from `=`-suffix or the next argument,
and on any error exits the process (status 2, or 0 for `ErrHelp`). -/

/-- Classification of one argument token, as in `flag.FlagSet.parseOne`. -/
inductive TokenKind where
  | notFlag
  | terminator
  | badSyntax
  | named (nameChars : List Char) (inlineValue : Option (List Char))
deriving DecidableEq, Repr

/-- Split a flag body at its first `=` (scanning from the second character of
the name, as `parseOne` does). -/
def scanEq : List Char → List Char × Option (List Char)
  | [] => ([], none)
  | c :: rest =>
    if c = '=' then ([], some rest)
    else
      let (pre, v) := scanEq rest
      (c :: pre, v)

/-- Embeds the token analysis of `flag.FlagSet.parseOne`: a token shorter than
two characters or not starting with `-` stops flag parsing; `--` alone
terminates it; after stripping one or two minuses, an empty name or one
starting with `-` or `=` is bad syntax; otherwise the name runs to the first
`=` and the remainder (if any) is the inline value. -/
def flagToken (s : String) : TokenKind :=
  match s.data with
  | '-' :: [] => .notFlag
  | '-' :: '-' :: [] => .terminator
  | '-' :: '-' :: c :: cs =>
    if c = '-' || c = '=' then .badSyntax
    else .named (c :: (scanEq cs).1) (scanEq cs).2
  | '-' :: c :: cs =>
    if c = '-' || c = '=' then .badSyntax
    else .named (c :: (scanEq cs).1) (scanEq cs).2
  | _ => .notFlag

/-- Lookup in the flag set's `formal` map (option names are unique once
registration has succeeded). -/
def lookupOpt (opts : List Opt) (n : String) : Option Opt :=
  opts.find? (fun o => o.Name == n)

/-- Apply `Opt.Set` to the (first) option with the given name, leaving the
others alone — the in-place pointer update of the Go parser. -/
def updateFirst : List Opt → String → String → List Opt
  | [], _, _ => []
  | o :: os, n, v =>
    if o.Name == n then o.Set v :: os
    else o :: updateFirst os n v

/-- Result of `flag.FlagSet.Parse`: success with leftover positional
arguments, a parse failure (which `ExitOnError` turns into `os.Exit(2)`), or
`ErrHelp` (which it turns into `os.Exit(0)`). -/
inductive ParseRes where
  | done (opts : List Opt) (trace : List Write) (rest : List String)
  | failed (opts : List Opt) (trace : List Write) (msg : String)
  | help (opts : List Opt) (trace : List Write)
deriving DecidableEq, Repr

/-- Embeds the `parseOne` loop of `flag.FlagSet.Parse` over the registered
options: recognized `--name value` / `--name=value` tokens invoke `Opt.Set`
on the matching option (recording the setter write); an unknown flag (other
than `help`/`h`), bad syntax, or a missing value is a parse failure. -/
def parseLoop : List Opt → List Write → List String → ParseRes
  | opts, trace, [] => .done opts trace []
  | opts, trace, s :: rest =>
    match flagToken s with
    | .notFlag => .done opts trace (s :: rest)
    | .terminator => .done opts trace rest
    | .badSyntax => .failed opts trace ("bad flag syntax: " ++ s)
    | .named nm inlineValue =>
      let name := String.mk nm
      match lookupOpt opts name with
      | none =>
        if name = "help" || name = "h" then .help opts trace
        else .failed opts trace ("flag provided but not defined: -" ++ name)
      | some _ =>
        match inlineValue with
        | some v =>
          parseLoop (updateFirst opts name (String.mk v))
            (trace ++ [⟨name, String.mk v, .flagMatch⟩]) rest
        | none =>
          match rest with
          | v :: rest2 =>
            parseLoop (updateFirst opts name v)
              (trace ++ [⟨name, v, .flagMatch⟩]) rest2
          | [] => .failed opts trace ("flag needs an argument: -" ++ name)

/-! ### Option registration in `Cmd.Init` -/

/-- Result of the registration loop of `Cmd.Init` (building `ParsedOpts` and
calling `flags.Var`): success, a returned `ParseBool` error, or the
"flag redefined" panic raised by `flag.FlagSet.Var` on a duplicate name. -/
inductive RegRes where
  | ok (opts : List Opt)
  | errRes (msg : String)
  | panicked (msg : String)
deriving DecidableEq, Repr

/-- The panic message of `flag.FlagSet.Var` for a duplicate name. -/
def flagRedefinedMsg (fsName nm : String) : String :=
  if fsName = "" then "flag redefined: " ++ nm
  else fsName ++ " flag redefined: " ++ nm

/-- Embeds the registration loop of `Cmd.Init`: for each discovered leaf build
an `Opt` named `ToSnakeCase(Field.Name)` with the `desc` tag, parse the
`required` tag if present (returning its error on malformed booleans), append
it to `ParsedOpts` and register it with `flags.Var`, which panics if the name
is already taken. -/
def registerOpts (fsName : String) : List LeafInfo → List Opt → RegRes
  | [], acc => .ok acc
  | ref :: rest, acc =>
    let nm := ToSnakeCase ref.fieldName
    let baseOpt : Opt :=
      { Name := nm, Description := ref.descTag, Value := "",
        State := .Untouched, Required := false }
    match ref.requiredTag with
    | none =>
      if acc.any (fun o => o.Name == nm) then .panicked (flagRedefinedMsg fsName nm)
      else registerOpts fsName rest (acc ++ [baseOpt])
    | some tagv =>
      match parseBool tagv with
      | none =>
        .errRes ("strconv.ParseBool: parsing " ++ "\"" ++ tagv ++ "\"" ++ ": invalid syntax")
      | some b =>
        if acc.any (fun o => o.Name == nm) then .panicked (flagRedefinedMsg fsName nm)
        else registerOpts fsName rest (acc ++ [{ baseOpt with Required := b }])

/-! ### Environment fallback and required check -/

/-- Embeds `strings.ToUpper` on option names (character-wise ASCII upcasing;
derived option names only contain ASCII letters, digits and `-`). -/
def stringsToUpper (s : String) : String :=
  String.mk (s.data.map Char.toUpper)

/-- Embeds the per-option body of the fallback loop in `Cmd.Init`: if the
option was not set by a flag, look up the environment variable named
`strings.ToUpper(opt.Name)`; if present write its value through `SetFunc`
and mark the option `EnvPassed`.  Returns the updated option and the setter
writes performed. -/
def envStep (env : String → Option String) (o : Opt) : Opt × List Write :=
  if o.State = .FlagPassed then (o, [])
  else
    match env (stringsToUpper o.Name) with
    | some envval =>
      ({ o with Value := envval, State := .EnvPassed }, [⟨o.Name, envval, .envFallback⟩])
    | none => (o, [])

/-- Embeds the fallback-and-required loop of `Cmd.Init`: walk `ParsedOpts` in
registration order; apply the environment fallback to each option, then fail
immediately — leaving the remaining options untouched — if it is still
`Untouched` but `Required`. -/
def envLoop (env : String → Option String) : List Opt → List Opt × List Write × Option String
  | [] => ([], [], none)
  | o :: os =>
    let (o2, w) := envStep env o
    if o2.State = .Untouched && o2.Required then
      (o2 :: os, w, some ("opt '" ++ o2.Name ++ "' is required but not passed"))
    else
      let (os2, ws, e) := envLoop env os
      (o2 :: os2, w ++ ws, e)

/-! ### Commands -/

/-- Embeds the `Cmd` struct.  `Opts` is the options record (`nil` in Go maps
to `none`); `Run` is the action, identified by name (`nil` maps to `none`).
`ExecutedAs`, `Args` and `ParsedOpts` are only written on local copies in the
Go code (all methods use value receivers) and are therefore not part of the
caller-observable state modelled here. -/
structure Cmd where
  Name : String
  Opts : Option (List RField)
  SubCmds : List Cmd
  Run : Option String

/-- Result of `Cmd.Init`.  Go's `Init` returns only an `error`, but the setter
writes into the caller's record persist, so the final option states and the
write trace are part of the observable outcome; `exited`/`panicked` model
`os.Exit` under `flag.ExitOnError` and the `flag.Var` redefinition panic. -/
inductive InitRes where
  | ok (opts : List Opt) (trace : List Write)
  | errRes (msg : String) (opts : List Opt) (trace : List Write)
  | exited (code : Nat) (opts : List Opt) (trace : List Write)
  | panicked (msg : String)
deriving DecidableEq, Repr

/-- Embeds `Cmd.Init`: with no options record it succeeds at once; otherwise
discover the leaves, register them (panic on duplicate names, error on a
malformed `required` tag), run the flag parser (exiting the process on parse
failure), then the environment-fallback/required loop. -/
def Cmd.Init (cmd : Cmd) (args : List String) (env : String → Option String) : InitRes :=
  match cmd.Opts with
  | none => .ok [] []
  | some rec =>
    match registerOpts cmd.Name (reflectStruct rec) [] with
    | .panicked m => .panicked m
    | .errRes m => .errRes m [] []
    | .ok opts =>
      match parseLoop opts [] args with
      | .failed o t _ => .exited 2 o t
      | .help o t => .exited 0 o t
      | .done o t _ =>
        match envLoop env o with
        | (o2, t2, some m) => .errRes m o2 (t ++ t2)
        | (o2, t2, none) => .ok o2 (t ++ t2)

/-- Embeds `Cmd.SubCmd`: linear scan of `SubCmds` for an exact name match. -/
def Cmd.SubCmd (cmd : Cmd) (subcmdname : String) : Option Cmd :=
  cmd.SubCmds.find? (fun c => c.Name == subcmdname)

/-- Result of `Cmd.Execute`: the action that ran together with the resolved
options and setter writes, an error returned to the caller, a process exit, or
a panic. -/
inductive ExecRes where
  | ran (action : String) (opts : List Opt) (trace : List Write)
  | errRes (msg : String)
  | exited (code : Nat)
  | panicked (msg : String)
deriving DecidableEq, Repr

/-- Embeds `Cmd.Execute` (with `os.Args[1:]` passed as `args`): while the
current node has children, require a further argument naming a child and
descend; at a childless node run `Init` and then the action.  A `nil` action
at the target is the Go nil-function-call panic. -/
def Cmd.Execute (cmd : Cmd) (args : List String) (env : String → Option String) : ExecRes :=
  if cmd.SubCmds.isEmpty then
    match cmd.Init args env with
    | .ok opts tr =>
      match cmd.Run with
      | some a => .ran a opts tr
      | none => .panicked "invalid memory address or nil pointer dereference"
    | .errRes m _ _ => .errRes m
    | .exited c _ _ => .exited c
    | .panicked m => .panicked m
  else
    match args with
    | [] => .errRes (cmd.Name ++ ": not engough arguments")
    | a :: rest =>
      match cmd.SubCmd a with
      | some sub => sub.Execute rest env
      | none => .errRes ("'" ++ a ++ "' is not a " ++ cmd.Name ++ " command")

/-- The body of `Cmd.AddSubCmd` as it acts on the method's local receiver
copy: `cmd.SubCmds = append(cmd.SubCmds, subcmd)`. -/
def Cmd.addSubCmdBody (cmd subcmd : Cmd) : Cmd :=
  { cmd with SubCmds := cmd.SubCmds ++ [subcmd] }

/-- Embeds a call `cmd.AddSubCmd(subcmd)` as observed by the caller: the
method's receiver is declared by value (`func (cmd Cmd) AddSubCmd(...)`), so
the body's append acts on a copy that is discarded when the method (which
returns nothing) ends; the value bound at the call site is returned
unchanged. -/
def Cmd.AddSubCmd (cmd : Cmd) (subcmd : Cmd) : Cmd :=
  let _localCopy := Cmd.addSubCmdBody cmd subcmd
  cmd

/-! ### Observable projections and trace predicates -/

/-- Final option states of an `Init` outcome (the record fields the caller
can observe; a panic unwinds the process, nothing is observable). -/
def initOpts : InitRes → List Opt
  | .ok o _ => o
  | .errRes _ o _ => o
  | .exited _ o _ => o
  | .panicked _ => []

/-- Setter writes performed during an `Init` outcome. -/
def initTrace : InitRes → List Write
  | .ok _ t => t
  | .errRes _ _ t => t
  | .exited _ _ t => t
  | .panicked _ => []

/-- Final option states of a flag-parse outcome. -/
def parseOutOpts : ParseRes → List Opt
  | .done o _ _ => o
  | .failed o _ _ => o
  | .help o _ => o

/-- Setter writes of a flag-parse outcome. -/
def parseOutTrace : ParseRes → List Write
  | .done _ t _ => t
  | .failed _ t _ => t
  | .help _ t => t

/-- Invariant maintained by the flag parser: every recorded write so far came
from a flag match, targeting an option that is registered and `FlagPassed`. -/
def ParseInv (opts : List Opt) (tr : List Write) : Prop :=
  ∀ w ∈ tr, w.src = .flagMatch ∧ ∃ o ∈ opts, o.Name = w.name ∧ o.State = .FlagPassed

/-- Whether the trace contains a write to `n` from source `s`. -/
def hasWrite (tr : List Write) (n : String) (s : WriteSrc) : Bool :=
  tr.any (fun w => w.name == n && w.src == s)

/-- No field storage receives both a flag write and an environment write. -/
def noCrossWrites (tr : List Write) : Bool :=
  tr.all (fun w1 => tr.all (fun w2 =>
    !(w1.name == w2.name && w1.src == .flagMatch && w2.src == .envFallback)))

/-- Every option that ends in state `FlagPassed` received no environment
write. -/
def flagPassedNoEnv (opts : List Opt) (tr : List Write) : Bool :=
  opts.all (fun o => !(o.State == .FlagPassed && hasWrite tr o.Name .envFallback))

/-- Every option still `Untouched` received no write at all: its state never
moved, so its storage was never touched. -/
def untouchedNoWrites (opts : List Opt) (tr : List Write) : Bool :=
  opts.all (fun o => !(o.State == .Untouched &&
    (hasWrite tr o.Name .flagMatch || hasWrite tr o.Name .envFallback)))

/-! ### Concrete scenarios referenced by the claims -/

/-- The empty environment. -/
def emptyEnv : String → Option String := fun _ => none

/-- Environment binding only `MAX_RETRY_COUNT` (the variable name the spec
predicts for the derived name `max-retry-count`). -/
def envUnderscore : String → Option String :=
  fun n => if n = "MAX_RETRY_COUNT" then some "5" else none

/-- A command whose options record has the single leaf field `MaxRetryCount`. -/
def cmdMaxRetry : Cmd :=
  ⟨"c", some [.leaf ⟨"MaxRetryCount", "", none⟩], [], some "A"⟩

/-- A command with a required leaf `Aa` declared before an optional leaf `Bb`. -/
def cmdReqThenOpt : Cmd :=
  ⟨"c", some [.leaf ⟨"Aa", "", some "true"⟩, .leaf ⟨"Bb", "", none⟩], [], some "A"⟩

/-- Environment binding only `BB` (the fallback variable of leaf `Bb`). -/
def envBB : String → Option String := fun n => if n = "BB" then some "x" else none

/-- A command with two leaf fields whose identifiers derive to the same
option name `http-server`. -/
def cmdDupNames : Cmd :=
  ⟨"c", some [.leaf ⟨"HTTPServer", "", none⟩, .leaf ⟨"HttpServer", "", none⟩], [], some "A"⟩

/-- The childless target node of the dispatch scenario: name `http`,
action `A`, one option derived from field `Port`. -/
def httpCmd : Cmd := ⟨"http", some [.leaf ⟨"Port", "", none⟩], [], some "A"⟩

/-- The router node `serve`, whose only child is `http`. -/
def serveCmd : Cmd := ⟨"serve", none, [httpCmd], some "S"⟩

/-- The root of the dispatch-scenario tree, whose only child is `serve`. -/
def rootCmd : Cmd := ⟨"root", none, [serveCmd], some "R"⟩

/-! ## Theorems -/

/-- C7: dispatch scenario on the tree root → "serve" → "http" (childless,
action `A`).  `["serve", "http", "--port", "8080"]` resolves `port = "8080"`
with state `FlagPassed` and invokes `A`; `["serve", "bogus"]` fails with an
unrecognized-subcommand error naming `bogus` and `serve`; `["serve"]` alone
fails with a not-enough-arguments error naming `serve`. -/
theorem C7_dispatch_scenario :
    rootCmd.Execute ["serve", "http", "--port", "8080"] emptyEnv =
      .ran "A" [⟨"port", "", "8080", .FlagPassed, false⟩] [⟨"port", "8080", .flagMatch⟩] ∧
    rootCmd.Execute ["serve", "bogus"] emptyEnv =
      .errRes ("'" ++ "bogus" ++ "' is not a " ++ "serve" ++ " command") ∧
    rootCmd.Execute ["serve"] emptyEnv =
      .errRes ("serve" ++ ": not engough arguments") :=
  ⟨rfl, rfl, rfl⟩

/-- C1, counterexample: with the derived name `max-retry-count` and the
environment variable `MAX_RETRY_COUNT` (underscores, as the claim predicts)
set to `"5"`, `Cmd.Init` leaves the option `Untouched` with an empty value:
the fallback does not look up the underscore form. -/
theorem C1_counterexample :
    envUnderscore "MAX_RETRY_COUNT" = some "5" ∧
    cmdMaxRetry.Init [] envUnderscore =
      .ok [⟨"max-retry-count", "", "", .Untouched, false⟩] [] :=
  ⟨rfl, rfl⟩

/-- C1 (amended): the environment fallback in `Cmd.Init` looks up the derived
name upper-cased with the hyphen separators preserved — for derived name
`max-retry-count` the variable is `MAX-RETRY-COUNT`, not `MAX_RETRY_COUNT` —
and when that variable is present and the option is still `Untouched`, its
value is written via the setter with state `EnvPassed`. -/
theorem C1_env_lookup_uppercased_hyphens
    (fn : String) (env : String → Option String) (v : String)
    (h : env (stringsToUpper (ToSnakeCase fn)) = some v) :
    stringsToUpper (ToSnakeCase "MaxRetryCount") = "MAX-RETRY-COUNT" ∧
    (Cmd.mk "c" (some [.leaf ⟨fn, "", none⟩]) [] (some "A")).Init [] env =
      .ok [⟨ToSnakeCase fn, "", v, .EnvPassed, false⟩]
        [⟨ToSnakeCase fn, v, .envFallback⟩] := by
  refine ⟨rfl, ?_⟩
  simp [Cmd.Init, reflectStruct, registerOpts, parseLoop, envLoop, envStep, h]

/-- Witness for `C1_env_lookup_uppercased_hyphens` at the concrete field
`MaxRetryCount` with `MAX-RETRY-COUNT=5` in the environment. -/
theorem C1_env_lookup_uppercased_hyphens_witness :
    (Cmd.mk "c" (some [.leaf ⟨"MaxRetryCount", "", none⟩]) [] (some "A")).Init []
        (fun n => if n = "MAX-RETRY-COUNT" then some "5" else none) =
      .ok [⟨ToSnakeCase "MaxRetryCount", "", "5", .EnvPassed, false⟩]
        [⟨ToSnakeCase "MaxRetryCount", "5", .envFallback⟩] :=
  (C1_env_lookup_uppercased_hyphens "MaxRetryCount"
    (fun n => if n = "MAX-RETRY-COUNT" then some "5" else none) "5" (by decide)).2

/-- C2, counterexample: an unrecognized flag among the arguments makes
`Cmd.Init` terminate the process with exit status 2 (via `flag.ExitOnError`)
instead of returning an error value. -/
theorem C2_counterexample :
    httpCmd.Init ["--bogus"] emptyEnv =
      .exited 2 [⟨"port", "", "", .Untouched, false⟩] [] :=
  rfl

/-- C2 (amended): a flag-syntax parser failure is not returned to the caller
as an error value: `Cmd.Init` creates its `flag.FlagSet` with
`flag.ExitOnError`, so whenever flag parsing over the registered options
fails, the process is terminated with exit status 2. -/
theorem C2_parse_failure_exits_process
    (cmdName : String) (rec : List RField) (subs : List Cmd) (run : Option String)
    (args : List String) (env : String → Option String)
    (opts o2 : List Opt) (tr : List Write) (msg : String)
    (hreg : registerOpts cmdName (reflectStruct rec) [] = .ok opts)
    (hparse : parseLoop opts [] args = .failed o2 tr msg) :
    (Cmd.mk cmdName (some rec) subs run).Init args env = .exited 2 o2 tr := by
  simp [Cmd.Init, hreg, hparse]

/-- Witness for `C2_parse_failure_exits_process`: the `http` node with a
`port` option, parsed against `["--bogus"]`. -/
theorem C2_parse_failure_exits_process_witness :
    (Cmd.mk "http" (some [.leaf ⟨"Port", "", none⟩]) [] (some "A")).Init
        ["--bogus"] emptyEnv =
      .exited 2 [⟨"port", "", "", .Untouched, false⟩] [] :=
  C2_parse_failure_exits_process "http" [.leaf ⟨"Port", "", none⟩] [] (some "A")
    ["--bogus"] emptyEnv [⟨"port", "", "", .Untouched, false⟩]
    [⟨"port", "", "", .Untouched, false⟩] [] "flag provided but not defined: -bogus"
    (by decide) (by decide)

/-- C4, counterexample: with the first registered option `aa` required and
unset, and the environment variable `BB` set for the later option `bb`,
`Cmd.Init` returns the missing-required error with `bb` still `Untouched`:
the fallback was not completed for options registered after the failing one. -/
theorem C4_counterexample :
    envBB "BB" = some "x" ∧
    cmdReqThenOpt.Init [] envBB =
      .errRes ("opt '" ++ "aa" ++ "' is required but not passed")
        [⟨"aa", "", "", .Untouched, true⟩, ⟨"bb", "", "", .Untouched, false⟩] [] :=
  ⟨rfl, rfl⟩

/-- C4 (amended): environment fallback and the required check are interleaved,
one option at a time in registration order: when the loop hits a required
option that is still `Untouched` after its own fallback step, `Cmd.Init`
returns the missing-required error immediately — options registered earlier
have received their environment fallback, while every option after the
failing one is left exactly as flag parsing left it. -/
theorem C4_required_check_interleaved
    (env : String → Option String) (pre post : List Opt) (o : Opt)
    (hpre : ∀ p ∈ pre, ¬((envStep env p).1.State = .Untouched ∧ (envStep env p).1.Required))
    (ho : (envStep env o).1.State = .Untouched)
    (hr : (envStep env o).1.Required = true) :
    envLoop env (pre ++ o :: post) =
      (pre.map (fun p => (envStep env p).1) ++ (envStep env o).1 :: post,
       pre.flatMap (fun p => (envStep env p).2) ++ (envStep env o).2,
       some ("opt '" ++ (envStep env o).1.Name ++ "' is required but not passed")) := by
  induction pre with
  | nil =>
    simp [envLoop, ho, hr]
  | cons p pre ih =>
    have hp := hpre p (List.mem_cons_self p pre)
    have hrest : ∀ q ∈ pre, ¬((envStep env q).1.State = .Untouched ∧ (envStep env q).1.Required) :=
      fun q hq => hpre q (List.mem_cons_of_mem p hq)
    have hC : (decide ((envStep env p).1.State = optState.Untouched) &&
        (envStep env p).1.Required) = false := by
      by_cases h1 : (envStep env p).1.State = optState.Untouched
      · have h2 : (envStep env p).1.Required = false := by
          by_contra h2
          exact hp ⟨h1, by simpa using h2⟩
        simp [h1, h2]
      · simp [h1]
    simp only [List.cons_append, envLoop, List.append_eq, hC, Bool.false_eq_true, if_false,
      List.map_cons, List.flatMap_cons]
    rw [ih hrest]
    simp [List.append_assoc]

/-- Witness for `C4_required_check_interleaved`: the required option `aa`
fails first while `bb` (with `BB` set in the environment) is left untouched. -/
theorem C4_required_check_interleaved_witness :
    envLoop envBB [⟨"aa", "", "", .Untouched, true⟩, ⟨"bb", "", "", .Untouched, false⟩] =
      ([⟨"aa", "", "", .Untouched, true⟩, ⟨"bb", "", "", .Untouched, false⟩], [],
       some ("opt '" ++ "aa" ++ "' is required but not passed")) := by
  have h := C4_required_check_interleaved envBB [] [⟨"bb", "", "", .Untouched, false⟩]
    ⟨"aa", "", "", .Untouched, true⟩ (by intro p hp; cases hp) (by decide) (by decide)
  simpa using h

/-- C9, counterexample: the record with fields `HTTPServer` and `HttpServer`
(both deriving to `http-server`) does not complete resolution setup — the
second `flag.Var` registration panics with "flag redefined"; setup neither
completes without error nor silently shadows. -/
theorem C9_counterexample :
    ToSnakeCase "HTTPServer" = "http-server" ∧
    ToSnakeCase "HttpServer" = "http-server" ∧
    cmdDupNames.Init [] emptyEnv = .panicked ("c" ++ " flag redefined: " ++ "http-server") :=
  ⟨rfl, rfl, rfl⟩

/-- C9 (amended): two leaf fields whose identifiers derive to the same
external option name do not silently overwrite one another: registering the
second duplicate panics (`flag.FlagSet.Var`'s "flag redefined" panic), so
resolution setup crashes instead of completing. -/
theorem C9_duplicate_names_panic
    (cmdName fn1 fn2 d1 d2 : String) (subs : List Cmd) (run : Option String)
    (args : List String) (env : String → Option String)
    (hdup : ToSnakeCase fn1 = ToSnakeCase fn2) :
    (Cmd.mk cmdName (some [.leaf ⟨fn1, d1, none⟩, .leaf ⟨fn2, d2, none⟩]) subs run).Init
        args env =
      .panicked (flagRedefinedMsg cmdName (ToSnakeCase fn2)) := by
  simp [Cmd.Init, reflectStruct, registerOpts, hdup]

/-- Witness for `C9_duplicate_names_panic` at `HTTPServer` / `HttpServer`. -/
theorem C9_duplicate_names_panic_witness :
    (Cmd.mk "c" (some [.leaf ⟨"HTTPServer", "", none⟩, .leaf ⟨"HttpServer", "", none⟩]) []
        (some "A")).Init [] emptyEnv =
      .panicked (flagRedefinedMsg "c" (ToSnakeCase "HttpServer")) :=
  C9_duplicate_names_panic "c" "HTTPServer" "HttpServer" "" "" [] (some "A") [] emptyEnv
    (by decide)

/-- C10: `Cmd.AddSubCmd` takes its receiver by value, so the append happens on
a discarded copy: the caller's command is unchanged, its `SubCmds` list is
unchanged, any later `Execute` behaves exactly as before the call, and — as
long as no equally-named child was added by other means — dispatch cannot
reach the subcommand passed to `AddSubCmd`. -/
theorem C10_addSubCmd_no_caller_effect
    (c s : Cmd) (h : s.Name ∉ c.SubCmds.map Cmd.Name) :
    c.AddSubCmd s = c ∧
    (c.AddSubCmd s).SubCmds = c.SubCmds ∧
    (Cmd.addSubCmdBody c s).SubCmds = c.SubCmds ++ [s] ∧
    (∀ args env, (c.AddSubCmd s).Execute args env = c.Execute args env) ∧
    (c.AddSubCmd s).SubCmd s.Name = none := by
  refine ⟨rfl, rfl, rfl, fun args env => rfl, ?_⟩
  show c.SubCmd s.Name = none
  rw [Cmd.SubCmd, List.find?_eq_none]
  intro x hx
  simp only [beq_iff_eq]
  intro hEq
  exact h (List.mem_map.mpr ⟨x, hx, hEq⟩)

/-- Witness for `C10_addSubCmd_no_caller_effect`: adding `http` to the
(childless) `http` node itself leaves it childless. -/
theorem C10_addSubCmd_no_caller_effect_witness :
    httpCmd.AddSubCmd serveCmd = httpCmd ∧
    (httpCmd.AddSubCmd serveCmd).SubCmd "serve" = none := by
  have h := C10_addSubCmd_no_caller_effect httpCmd serveCmd (by simp [httpCmd, serveCmd])
  exact ⟨h.1, h.2.2.2.2⟩

/-- An option already set by a flag passes through `envStep` unchanged. -/
theorem envStep_flagPassed (env : String → Option String) (o : Opt)
    (h : o.State = .FlagPassed) : envStep env o = (o, []) := by
  simp [envStep, h]

/-- C3: flag values strictly dominate environment values.  Positionally, any
option in state `FlagPassed` is returned unchanged (same value, same state) by
the environment-fallback loop, whatever the environment holds; end to end,
`--port v` resolves to value `v` with state `FlagPassed` under every
environment, including one that binds `PORT`. -/
theorem C3_flag_dominates_env :
    (∀ (env : String → Option String) (opts : List Opt) (i : Nat) (o : Opt),
      opts[i]? = some o → o.State = .FlagPassed →
      (envLoop env opts).1[i]? = some o) ∧
    (∀ (env : String → Option String) (v : String),
      httpCmd.Init ["--port", v] env =
        .ok [⟨"port", "", v, .FlagPassed, false⟩] [⟨"port", v, .flagMatch⟩]) := by
  constructor
  · intro env opts
    induction opts with
    | nil => intro i o h; simp at h
    | cons p os ih =>
      intro i o hgo hst
      cases i with
      | zero =>
        have hpo : p = o := by simpa using hgo
        subst hpo
        simp only [envLoop, envStep_flagPassed env p hst]
        split
        · simp
        · simp
      | succ n =>
        have hgo2 : os[n]? = some o := by simpa using hgo
        simp only [envLoop]
        split
        · simpa using hgo2
        · simpa using ih n o hgo2 hst
  · intro env v
    rfl

/-- Witness for `C3_flag_dominates_env` with `PORT` bound to a different value
in the environment. -/
theorem C3_flag_dominates_env_witness :
    (envLoop (fun _ => some "9") [⟨"port", "", "8080", .FlagPassed, false⟩]).1[0]? =
      some ⟨"port", "", "8080", .FlagPassed, false⟩ ∧
    httpCmd.Init ["--port", "8080"] (fun n => if n = "PORT" then some "9" else none) =
      .ok [⟨"port", "", "8080", .FlagPassed, false⟩] [⟨"port", "8080", .flagMatch⟩] :=
  ⟨C3_flag_dominates_env.1 (fun _ => some "9")
      [⟨"port", "", "8080", .FlagPassed, false⟩] 0 ⟨"port", "", "8080", .FlagPassed, false⟩
      rfl rfl,
   C3_flag_dominates_env.2 (fun n => if n = "PORT" then some "9" else none) "8080"⟩

/-- A nested record's leaves are the concatenation of its fields' leaves. -/
theorem leavesOf_nested (n : String) (gs : List RField) :
    leavesOf (.nested n gs) = gs.flatMap leavesOf := by
  induction gs with
  | nil => simp [leavesOf]
  | cons g gs ih => rw [leavesOf, ih, List.flatMap_cons]

/-- The unwrap of a field list is the depth-first flatten of its leaves
(strong induction on the structural size). -/
theorem structUnwrap_flatMap_aux :
    ∀ (k : Nat) (fs : List RField), sizeOf fs ≤ k → structUnwrap fs = fs.flatMap leavesOf := by
  intro k
  induction k with
  | zero =>
    intro fs h
    exfalso
    cases fs with
    | nil => simp at h
    | cons f rest => simp at h
  | succ k ih =>
    intro fs h
    match fs with
    | [] => rfl
    | .leaf i :: rest =>
      rw [structUnwrap, unwrapField, List.flatMap_cons, leavesOf]
      rw [ih rest (by simp at h ⊢; omega)]
    | .nested n gs :: rest =>
      rw [structUnwrap, unwrapField, List.flatMap_cons, leavesOf_nested]
      rw [ih gs (by simp at h ⊢; omega), ih rest (by simp at h ⊢; omega)]

/-- A single field contributes `countLeavesF` many leaves. -/
theorem length_leavesOf (f : RField) : (leavesOf f).length = countLeavesF f := by
  induction f using leavesOf.induct with
  | case1 i => simp [leavesOf, countLeavesF]
  | case2 n => simp [leavesOf, countLeavesF]
  | case3 n g gs ih1 ih2 =>
    rw [leavesOf, countLeavesF, List.length_append, ih1, ih2]

/-- C6: field discovery flattens any options record to exactly its leaf
fields: the unwrap equals the depth-first, declaration-order flatten of the
leaves (so a nested record's leaves appear contiguously in place), and its
length is the total leaf count. -/
theorem C6_field_discovery_flattens (fs : List RField) :
    structUnwrap fs = fs.flatMap leavesOf ∧
    (structUnwrap fs).length = (fs.map countLeavesF).sum := by
  have h := structUnwrap_flatMap_aux (sizeOf fs) fs le_rfl
  refine ⟨h, ?_⟩
  rw [h, List.length_flatMap]
  congr 1
  simp [Function.comp, length_leavesOf]

/-- Any fuel at least the list's length computes the `matchFirstCap`
replacement: the fuel is irrelevant beyond that bound. -/
theorem replFirstCapF_fuel :
    ∀ (k : Nat) (s : List Char), s.length ≤ k → replFirstCapF k s = replFirstCap s := by
  intro k
  induction k using Nat.strong_induction_on with
  | _ k ih =>
    intro s hlen
    match k, s with
    | 0, [] => rfl
    | Nat.succ k, [] => rfl
    | Nat.succ k, [a] => rfl
    | Nat.succ k, [a, b] => rfl
    | Nat.succ k, c :: u :: l :: rest =>
      have hdrop : ((l :: rest).dropWhile isLowerAZ).length ≤ rest.length + 1 := by
        have h := (List.dropWhile_sublist (l := l :: rest) isLowerAZ).length_le
        simpa using h
      have hlen2 : rest.length + 2 ≤ k := by
        simp only [List.length_cons] at hlen
        omega
      have e1 : replFirstCapF k ((l :: rest).dropWhile isLowerAZ) =
          replFirstCap ((l :: rest).dropWhile isLowerAZ) :=
        ih k (Nat.lt_succ_self k) _ (by omega)
      have e2 : replFirstCapF k (u :: l :: rest) = replFirstCap (u :: l :: rest) :=
        ih k (Nat.lt_succ_self k) _ (by simp only [List.length_cons]; omega)
      have e3 : replFirstCapF (rest.length + 2) ((l :: rest).dropWhile isLowerAZ) =
          replFirstCap ((l :: rest).dropWhile isLowerAZ) :=
        ih (rest.length + 2) (by omega) _ (by omega)
      have hfc : replFirstCap (c :: u :: l :: rest) =
          replFirstCapF (rest.length + 2 + 1) (c :: u :: l :: rest) := by
        simp [replFirstCap]
      rw [replFirstCapF, hfc, replFirstCapF, e1, e2, e3]
      have e4 : replFirstCapF (rest.length + 2) (u :: l :: rest) =
          replFirstCap (u :: l :: rest) := by
        simp [replFirstCap]
      rw [e4]

/-- Step equation of the `matchFirstCap` pass on a list of length at least
three (the only shape the pattern can match). -/
theorem replFirstCap_cons3 (c u l : Char) (rest : List Char) :
    replFirstCap (c :: u :: l :: rest) =
      if isUpperAZ u && isLowerAZ l then
        c :: '-' :: u :: ((l :: rest).takeWhile isLowerAZ ++
          replFirstCap ((l :: rest).dropWhile isLowerAZ))
      else
        c :: replFirstCap (u :: l :: rest) := by
  have hdrop : ((l :: rest).dropWhile isLowerAZ).length ≤ rest.length + 1 := by
    have h := (List.dropWhile_sublist (l := l :: rest) isLowerAZ).length_le
    simpa using h
  have hfc : replFirstCap (c :: u :: l :: rest) =
      replFirstCapF (rest.length + 2 + 1) (c :: u :: l :: rest) := by
    simp [replFirstCap]
  rw [hfc, replFirstCapF,
    replFirstCapF_fuel (rest.length + 2) ((l :: rest).dropWhile isLowerAZ) (by omega),
    replFirstCapF_fuel (rest.length + 2) (u :: l :: rest) (by simp)]

/-- The `matchFirstCap` pass keeps the first character in place (insertions
happen strictly after it). -/
theorem replFirstCap_head (x : Char) (xs : List Char) :
    ∃ w, replFirstCap (x :: xs) = x :: w := by
  match xs with
  | [] => exact ⟨[], rfl⟩
  | [b] => exact ⟨[b], rfl⟩
  | u :: l :: rest =>
    rw [replFirstCap_cons3]
    by_cases h : isUpperAZ u && isLowerAZ l
    · exact ⟨_, by rw [if_pos h]⟩
    · exact ⟨_, by rw [if_neg h]⟩

/-- ASCII classes: a lowercase letter is not uppercase. -/
theorem not_upper_of_lower {c : Char} (h : isLowerAZ c = true) : isUpperAZ c = false := by
  simp [isLowerAZ] at h
  simp [isUpperAZ]
  omega

/-- ASCII classes: an uppercase letter is not lowercase. -/
theorem not_lower_of_upper {c : Char} (h : isUpperAZ c = true) : isLowerAZ c = false := by
  simp [isUpperAZ] at h
  simp [isLowerAZ]
  omega

/-- ASCII classes: an uppercase letter is not a digit. -/
theorem not_digit_of_upper {c : Char} (h : isUpperAZ c = true) : isDigit09 c = false := by
  simp [isUpperAZ] at h
  simp [isDigit09]
  omega

/-- An alphanumeric character is lowercase, uppercase or a digit. -/
theorem alnum_cases {c : Char} (h : isAlnumAZ c = true) :
    isLowerAZ c = true ∨ isUpperAZ c = true ∨ isDigit09 c = true := by
  unfold isAlnumAZ at h
  simp only [Bool.or_eq_true] at h
  tauto

/-- The `matchAllCap` pass passes over a head that is not lowercase-or-digit. -/
theorem replAllCap_not_group1 {d : Char} (h : (isLowerAZ d || isDigit09 d) = false)
    (w : List Char) : replAllCap (d :: w) = d :: replAllCap w := by
  cases w with
  | nil => rfl
  | cons x w' =>
    rw [replAllCap, h]
    simp

/-- The `matchAllCap` pass passes over an uppercase head. -/
theorem replAllCap_upperhead {d : Char} (h : isUpperAZ d = true) (w : List Char) :
    replAllCap (d :: w) = d :: replAllCap w :=
  replAllCap_not_group1 (by simp [not_lower_of_upper h, not_digit_of_upper h]) w

/-- The first character of the dropped suffix fails the predicate. -/
theorem head_dropWhile_false (p : Char → Bool) :
    ∀ (l : List Char) (d : Char), (l.dropWhile p).head? = some d → p d = false := by
  intro l
  induction l with
  | nil => intro d h; simp [List.dropWhile] at h
  | cons a l ih =>
    intro d h
    rw [List.dropWhile_cons] at h
    by_cases hp : p a = true
    · rw [if_pos hp] at h
      exact ih d h
    · rw [if_neg hp] at h
      have had : a = d := by simpa using h
      cases hpa : p a with
      | false => rw [← had]; exact hpa
      | true => exact absurd hpa hp

/-- `insertSeps` keeps the first character in place. -/
theorem insertSeps_head (x : Char) (xs : List Char) :
    ∃ w, insertSeps (x :: xs) = x :: w := by
  cases xs with
  | nil => exact ⟨[], rfl⟩
  | cons b rest =>
    rw [insertSeps]
    by_cases h : sepHere x b rest = true
    · exact ⟨_, by rw [if_pos h]⟩
    · exact ⟨_, by rw [if_neg h]⟩

/-- Step equation of the `matchAllCap` pass. -/
theorem replAllCap_cons2 (a b : Char) (rest : List Char) :
    replAllCap (a :: b :: rest) =
      if (isLowerAZ a || isDigit09 a) && isUpperAZ b then a :: '-' :: b :: replAllCap rest
      else a :: replAllCap (b :: rest) := rfl

/-- Step equation of the specification insertion. -/
theorem insertSeps_cons2 (a b : Char) (rest : List Char) :
    insertSeps (a :: b :: rest) =
      if sepHere a b rest then a :: '-' :: insertSeps (b :: rest)
      else a :: insertSeps (b :: rest) := rfl

/-- Every character of an all-alphanumeric list is alphanumeric. -/
theorem allAlnum_mem {s : List Char} (h : allAlnum s = true) {c : Char} (hc : c ∈ s) :
    isAlnumAZ c = true := by
  unfold allAlnum at h
  exact List.all_eq_true.mp h c hc

/-- All-alphanumeric transfers to any subset. -/
theorem allAlnum_of_subset {s t : List Char} (h : allAlnum s = true)
    (hsub : ∀ c ∈ t, c ∈ s) : allAlnum t = true := by
  unfold allAlnum
  rw [List.all_eq_true]
  intro c hc
  exact allAlnum_mem h (hsub c hc)

/-- Processing a lowercase run: walking the run with the `matchAllCap` pass,
followed by the already-replaced remainder, agrees with the specification
insertion over the run followed by the remainder.  The hypothesis `IH` is the
outer induction hypothesis of the main equivalence. -/
theorem c5_run_lemma (n : Nat)
    (IH : ∀ t : List Char, t.length ≤ n → allAlnum t = true →
      replAllCap (replFirstCap t) = insertSeps t) :
    ∀ (run r2 : List Char), (∀ c ∈ run, isLowerAZ c = true) → allAlnum r2 = true →
      (∀ d, r2.head? = some d → isLowerAZ d = false) → r2.length ≤ n →
      replAllCap (run ++ replFirstCap r2) = insertSeps (run ++ r2) := by
  intro run
  induction run with
  | nil =>
    intro r2 _ h2 _ hlen
    simpa using IH r2 hlen h2
  | cons y run ihr =>
    intro r2 hlc h2 hhd hlen
    have hy : isLowerAZ y = true := hlc y (List.mem_cons_self y run)
    cases run with
    | nil =>
      cases r2 with
      | nil => rfl
      | cons d t2 =>
        have hd_not_lc : isLowerAZ d = false := hhd d rfl
        have hd_alnum : isAlnumAZ d = true := allAlnum_mem h2 (List.mem_cons_self d t2)
        obtain ⟨w, hw⟩ := replFirstCap_head d t2
        have hIH : replAllCap (replFirstCap (d :: t2)) = insertSeps (d :: t2) :=
          IH _ hlen h2
        rw [hw] at hIH
        show replAllCap (y :: replFirstCap (d :: t2)) = insertSeps (y :: d :: t2)
        rw [hw]
        rcases alnum_cases hd_alnum with hdl | hdu | hdd
        · rw [hdl] at hd_not_lc; cases hd_not_lc
        · have hc : ((isLowerAZ y || isDigit09 y) && isUpperAZ d) = true := by
            simp [hy, hdu]
          rw [replAllCap_cons2, if_pos hc]
          rw [replAllCap_upperhead hdu] at hIH
          have hs : sepHere y d t2 = true := by simp [sepHere, hy, hdu]
          rw [insertSeps_cons2, if_pos hs, ← hIH]
        · have hdu : isUpperAZ d = false := by
            cases hv : isUpperAZ d with
            | false => rfl
            | true => rw [not_digit_of_upper hv] at hdd; cases hdd
          have hc : ((isLowerAZ y || isDigit09 y) && isUpperAZ d) = false := by
            simp [hdu]
          rw [replAllCap_cons2, if_neg (by simp [hc]), hIH]
          have hs : sepHere y d t2 = false := by
            simp [sepHere, hdu, not_upper_of_lower hy]
          rw [insertSeps_cons2, if_neg (by simp [hs])]
    | cons z run' =>
      have hz : isLowerAZ z = true := hlc z (by simp)
      show replAllCap (y :: z :: (run' ++ replFirstCap r2)) =
        insertSeps (y :: z :: (run' ++ r2))
      have hc : ((isLowerAZ y || isDigit09 y) && isUpperAZ z) = false := by
        simp [not_upper_of_lower hz]
      rw [replAllCap_cons2, if_neg (by simp [hc])]
      have hs : sepHere y z (run' ++ r2) = false := by
        simp [sepHere, not_upper_of_lower hz]
      rw [insertSeps_cons2, if_neg (by simp [hs])]
      exact congrArg (List.cons y)
        (ihr r2 (fun c hcm => hlc c (List.mem_cons_of_mem y hcm)) h2 hhd hlen)

/-- Main equivalence, by strong induction on the length bound: on
alphanumeric input the two regex passes compose to exactly the
specification's separator insertion. -/
theorem c5_main_aux :
    ∀ (n : Nat) (s : List Char), s.length ≤ n → allAlnum s = true →
      replAllCap (replFirstCap s) = insertSeps s := by
  intro n
  induction n with
  | zero =>
    intro s h _
    match s with
    | [] => rfl
    | c :: t => simp at h
  | succ n ih =>
    intro s hlen halnum
    match s with
    | [] => rfl
    | [a] => rfl
    | [a, b] =>
      show replAllCap [a, b] = insertSeps [a, b]
      rw [replAllCap_cons2, insertSeps_cons2]
      have hsep : sepHere a b [] = ((isLowerAZ a || isDigit09 a) && isUpperAZ b) := by
        simp [sepHere]
      rw [hsep]
      by_cases hc : ((isLowerAZ a || isDigit09 a) && isUpperAZ b) = true
      · rw [if_pos hc, if_pos hc]; rfl
      · rw [if_neg hc, if_neg hc]; rfl
    | a :: b :: l :: r =>
      have ha : isAlnumAZ a = true := allAlnum_mem halnum (by simp)
      have htail : allAlnum (b :: l :: r) = true :=
        allAlnum_of_subset halnum (by intro c hc; simp at hc ⊢; tauto)
      by_cases hmatch : (isUpperAZ b && isLowerAZ l) = true
      · have hbl : isUpperAZ b = true ∧ isLowerAZ l = true := by simpa using hmatch
        have hb : isUpperAZ b = true := hbl.1
        have hl : isLowerAZ l = true := hbl.2
        rw [replFirstCap_cons3, if_pos hmatch]
        have hdash1 : ((isLowerAZ a || isDigit09 a) && isUpperAZ '-') = false := by
          rw [show isUpperAZ '-' = false from by decide, Bool.and_false]
        rw [replAllCap_cons2, if_neg (by simp [hdash1])]
        rw [replAllCap_not_group1 (show (isLowerAZ '-' || isDigit09 '-') = false from by decide)]
        rw [replAllCap_upperhead hb]
        have hrun : ∀ c ∈ (l :: r).takeWhile isLowerAZ, isLowerAZ c = true :=
          fun c hcm => List.mem_takeWhile_imp hcm
        have hr2alnum : allAlnum ((l :: r).dropWhile isLowerAZ) = true :=
          allAlnum_of_subset htail
            (by
              intro c hcm
              have hmem : c ∈ l :: r := (List.dropWhile_sublist isLowerAZ).subset hcm
              simp at hmem ⊢
              tauto)
        have hr2head : ∀ d, ((l :: r).dropWhile isLowerAZ).head? = some d →
            isLowerAZ d = false := head_dropWhile_false isLowerAZ (l :: r)
        have hr2len : ((l :: r).dropWhile isLowerAZ).length ≤ n := by
          have hd := (List.dropWhile_sublist (l := l :: r) isLowerAZ).length_le
          simp only [List.length_cons] at hd hlen
          omega
        rw [c5_run_lemma n ih _ _ hrun hr2alnum hr2head hr2len]
        rw [List.takeWhile_append_dropWhile]
        have hs1 : sepHere a b (l :: r) = true := by
          rcases alnum_cases ha with h | h | h <;> simp [sepHere, h, hb, hl]
        have hs2 : sepHere b l r = false := by
          simp [sepHere, not_upper_of_lower hl]
        rw [insertSeps_cons2, if_pos hs1, insertSeps_cons2, if_neg (by simp [hs2])]
      · rw [replFirstCap_cons3, if_neg hmatch]
        obtain ⟨w, hw⟩ := replFirstCap_head b (l :: r)
        have hIH : replAllCap (replFirstCap (b :: l :: r)) = insertSeps (b :: l :: r) :=
          ih _ (by simp only [List.length_cons] at hlen ⊢; omega) htail
        rw [hw] at hIH
        rw [hw, replAllCap_cons2]
        by_cases hc : ((isLowerAZ a || isDigit09 a) && isUpperAZ b) = true
        · have hb : isUpperAZ b = true := (by simpa using hc : _ ∧ isUpperAZ b = true).2
          rw [if_pos hc]
          rw [replAllCap_upperhead hb] at hIH
          have hs : sepHere a b (l :: r) = true := by simp [sepHere, hc]
          rw [insertSeps_cons2, if_pos hs, ← hIH]
        · have h1 : ((isLowerAZ a || isDigit09 a) && isUpperAZ b) = false := by
            cases h' : ((isLowerAZ a || isDigit09 a) && isUpperAZ b) with
            | false => rfl
            | true => exact absurd h' hc
          have h2 : (isUpperAZ b && isLowerAZ l) = false := by
            cases h' : (isUpperAZ b && isLowerAZ l) with
            | false => rfl
            | true => exact absurd h' hmatch
          rw [if_neg hc, hIH]
          have hs : sepHere a b (l :: r) = false := by
            cases hub : isUpperAZ b with
            | false => simp [sepHere, h1, hub]
            | true =>
              have hll : isLowerAZ l = false := by rw [hub] at h2; simpa using h2
              rw [hub, Bool.and_true] at h1
              simp [sepHere, h1, hub, hll]
          have hstep : insertSeps (a :: b :: l :: r) = a :: insertSeps (b :: l :: r) := by
            rw [insertSeps_cons2, if_neg (by simp [hs])]
          rw [hstep]

/-- The specification insertion never touches the last character. -/
theorem insertSeps_getLast : ∀ (s : List Char), (insertSeps s).getLast? = s.getLast? := by
  intro s
  induction s with
  | nil => rfl
  | cons a t ih =>
    cases t with
    | nil => rfl
    | cons b rest =>
      obtain ⟨w, hw⟩ := insertSeps_head b rest
      rw [insertSeps_cons2]
      by_cases h : sepHere a b rest = true
      · rw [if_pos h, hw, List.getLast?_cons_cons, List.getLast?_cons_cons, ← hw, ih,
          List.getLast?_cons_cons]
      · rw [if_neg h, hw, List.getLast?_cons_cons, ← hw, ih, List.getLast?_cons_cons]

/-- C5: the name deriver agrees, on every alphanumeric identifier, with the
specification rule — a separator inserted exactly before each lowercase or
digit to uppercase transition and before an uppercase letter that begins a
lowercase run after other uppercase letters, then everything lowercased — it
maps `MaxRetryCount` to `max-retry-count` and `HTTPServer` to `http-server`,
and it produces no leading or trailing separator: the first and last output
characters are the lowered first and last input characters. -/
theorem C5_name_deriver :
    (∀ s : List Char, allAlnum s = true → toSnakeList s = snakeSpec s) ∧
    ToSnakeCase "MaxRetryCount" = "max-retry-count" ∧
    ToSnakeCase "HTTPServer" = "http-server" ∧
    (∀ s : List Char, allAlnum s = true →
      (toSnakeList s).head? = s.head?.map Char.toLower ∧
      (toSnakeList s).getLast? = s.getLast?.map Char.toLower) := by
  have hmain : ∀ s : List Char, allAlnum s = true → toSnakeList s = snakeSpec s := by
    intro s h
    unfold toSnakeList snakeSpec
    rw [c5_main_aux s.length s le_rfl h]
  refine ⟨hmain, rfl, rfl, ?_⟩
  intro s h
  rw [hmain s h]
  unfold snakeSpec
  constructor
  · cases s with
    | nil => rfl
    | cons a t =>
      obtain ⟨w, hw⟩ := insertSeps_head a t
      rw [hw]
      rfl
  · rw [List.getLast?_map, insertSeps_getLast]

/-- Witness for `C5_name_deriver` at the concrete identifiers of the claim. -/
theorem C5_name_deriver_witness :
    toSnakeList "HTTPServer".data = snakeSpec "HTTPServer".data ∧
    (toSnakeList "MaxRetryCount".data).head? =
      ("MaxRetryCount".data).head?.map Char.toLower ∧
    (toSnakeList "MaxRetryCount".data).getLast? =
      ("MaxRetryCount".data).getLast?.map Char.toLower :=
  ⟨C5_name_deriver.1 "HTTPServer".data (by decide),
   (C5_name_deriver.2.2.2 "MaxRetryCount".data (by decide)).1,
   (C5_name_deriver.2.2.2 "MaxRetryCount".data (by decide)).2⟩

/-- Setting an option in place does not change the name column. -/
theorem updateFirst_map_name (opts : List Opt) (n v : String) :
    (updateFirst opts n v).map Opt.Name = opts.map Opt.Name := by
  induction opts with
  | nil => rfl
  | cons o os ih =>
    rw [updateFirst]
    by_cases h : (o.Name == n) = true
    · rw [if_pos h]; simp [Opt.Set]
    · rw [if_neg h]; simp [ih]

/-- A `FlagPassed` option keeps a same-named `FlagPassed` representative
across an in-place set. -/
theorem updateFirst_keep {opts : List Opt} {o : Opt} (hm : o ∈ opts)
    (hs : o.State = .FlagPassed) (n v : String) :
    ∃ o' ∈ updateFirst opts n v, o'.Name = o.Name ∧ o'.State = .FlagPassed := by
  induction opts with
  | nil => cases hm
  | cons p os ih =>
    rw [updateFirst]
    by_cases h : (p.Name == n) = true
    · rw [if_pos h]
      rcases List.mem_cons.mp hm with rfl | hm2
      · exact ⟨o.Set v, List.mem_cons_self _ _, rfl, rfl⟩
      · exact ⟨o, List.mem_cons_of_mem _ hm2, rfl, hs⟩
    · rw [if_neg h]
      rcases List.mem_cons.mp hm with rfl | hm2
      · exact ⟨o, List.mem_cons_self _ _, rfl, hs⟩
      · obtain ⟨o', ho', h1, h2⟩ := ih hm2
        exact ⟨o', List.mem_cons_of_mem _ ho', h1, h2⟩

/-- After setting a registered option in place, a `FlagPassed` option with the
set name is present. -/
theorem updateFirst_new {opts : List Opt} {n : String}
    (h : (lookupOpt opts n).isSome) (v : String) :
    ∃ o' ∈ updateFirst opts n v, o'.Name = n ∧ o'.State = .FlagPassed := by
  induction opts with
  | nil => simp [lookupOpt] at h
  | cons p os ih =>
    rw [updateFirst]
    by_cases hh : (p.Name == n) = true
    · rw [if_pos hh]
      exact ⟨p.Set v, List.mem_cons_self _ _, by simpa using hh, rfl⟩
    · rw [if_neg hh]
      have hh2 : (p.Name == n) = false := by simpa using hh
      have h2 : (lookupOpt os n).isSome := by
        rw [lookupOpt, List.find?, hh2] at h
        exact h
      obtain ⟨o', ho', h1, h2'⟩ := ih h2
      exact ⟨o', List.mem_cons_of_mem _ ho', h1, h2'⟩

/-- The flag-parse loop preserves the name column and the parse invariant:
whatever outcome parsing takes, the option names are unchanged and every
recorded write is a flag write into a registered, now-`FlagPassed` option. -/
theorem parseLoop_main :
    ∀ (n : Nat) (args : List String), args.length ≤ n →
      ∀ (opts : List Opt) (tr : List Write), ParseInv opts tr →
        (parseOutOpts (parseLoop opts tr args)).map Opt.Name = opts.map Opt.Name ∧
        ParseInv (parseOutOpts (parseLoop opts tr args))
          (parseOutTrace (parseLoop opts tr args)) := by
  intro n
  induction n with
  | zero =>
    intro args hlen opts tr hinv
    match args with
    | [] => exact ⟨rfl, hinv⟩
    | s :: rest => simp at hlen
  | succ n ih =>
    intro args hlen opts tr hinv
    match args with
    | [] => exact ⟨rfl, hinv⟩
    | s :: rest =>
      rw [parseLoop]
      cases hft : flagToken s with
      | notFlag => exact ⟨rfl, hinv⟩
      | terminator => exact ⟨rfl, hinv⟩
      | badSyntax => exact ⟨rfl, hinv⟩
      | named nm iv =>
        simp only []
        cases hlo : lookupOpt opts (String.mk nm) with
        | none =>
          simp only []
          by_cases hhelp : (String.mk nm = "help" ∨ String.mk nm = "h")
          · have hcond : (decide (String.mk nm = "help") || decide (String.mk nm = "h")) = true := by
              rcases hhelp with h | h <;> simp [h]
            rw [hcond, if_pos rfl]
            exact ⟨rfl, hinv⟩
          · have hcond : (decide (String.mk nm = "help") || decide (String.mk nm = "h")) = false := by
              push_neg at hhelp
              simp [hhelp.1, hhelp.2]
            rw [hcond, if_neg (by simp)]
            exact ⟨rfl, hinv⟩
        | some o =>
          simp only []
          have hsome : (lookupOpt opts (String.mk nm)).isSome := by rw [hlo]; rfl
          have hstep : ∀ v : String,
              ParseInv (updateFirst opts (String.mk nm) v)
                (tr ++ [⟨String.mk nm, v, .flagMatch⟩]) := by
            intro v w hw
            rcases List.mem_append.mp hw with hw1 | hw2
            · obtain ⟨hsrc, o0, ho0, hname, hstate⟩ := hinv w hw1
              obtain ⟨o', ho', hn', hs'⟩ := updateFirst_keep ho0 hstate (String.mk nm) v
              exact ⟨hsrc, o', ho', hn'.trans hname, hs'⟩
            · have hwv : w = ⟨String.mk nm, v, .flagMatch⟩ := by simpa using hw2
              subst hwv
              obtain ⟨o', ho', hn', hs'⟩ := updateFirst_new hsome v
              exact ⟨rfl, o', ho', hn', hs'⟩
          cases iv with
          | some v =>
            have hrec := ih rest (by simp at hlen; omega) _ _ (hstep (String.mk v))
            exact ⟨hrec.1.trans (updateFirst_map_name opts (String.mk nm) (String.mk v)),
              hrec.2⟩
          | none =>
            cases rest with
            | nil => exact ⟨rfl, hinv⟩
            | cons v rest2 =>
              have hrec := ih rest2 (by simp at hlen; omega) _ _ (hstep v)
              exact ⟨hrec.1.trans (updateFirst_map_name opts (String.mk nm) v), hrec.2⟩

/-- Successful registration yields options that are all `Untouched` with
pairwise distinct names (a duplicate would have panicked). -/
theorem registerOpts_ok_inv (fsName : String) :
    ∀ (fields : List LeafInfo) (acc opts : List Opt),
      registerOpts fsName fields acc = .ok opts →
      (∀ o ∈ acc, o.State = .Untouched) →
      (acc.map Opt.Name).Nodup →
      (∀ o ∈ opts, o.State = .Untouched) ∧ (opts.map Opt.Name).Nodup := by
  intro fields
  induction fields with
  | nil =>
    intro acc opts h h1 h2
    rw [registerOpts] at h
    cases h
    exact ⟨h1, h2⟩
  | cons ref rest ih =>
    intro acc opts h h1 h2
    rw [registerOpts] at h
    have hstep : ∀ (newOpt : Opt), newOpt.Name = ToSnakeCase ref.fieldName →
        newOpt.State = .Untouched →
        (acc.any (fun o => o.Name == ToSnakeCase ref.fieldName)) = false →
        registerOpts fsName rest (acc ++ [newOpt]) = .ok opts →
        (∀ o ∈ opts, o.State = .Untouched) ∧ (opts.map Opt.Name).Nodup := by
      intro newOpt hn hs hdup hrec
      apply ih _ _ hrec
      · intro o ho
        rcases List.mem_append.mp ho with hoa | hob
        · exact h1 o hoa
        · have : o = newOpt := by simpa using hob
          rw [this]; exact hs
      · rw [List.map_append, List.map_cons, List.map_nil]
        rw [List.nodup_append]
        refine ⟨h2, List.nodup_singleton _, ?_⟩
        intro x hx hx2
        have hxn : x = newOpt.Name := by simpa using hx2
        obtain ⟨o, ho, rfl⟩ := List.mem_map.mp hx
        have := List.any_eq_false.mp hdup o ho
        rw [hxn, hn] at this
        simp at this
    cases hrt : ref.requiredTag with
    | none =>
      rw [hrt] at h
      by_cases hdup : (acc.any (fun o => o.Name == ToSnakeCase ref.fieldName)) = true
      · rw [if_pos hdup] at h; cases h
      · have hdup2 : (acc.any (fun o => o.Name == ToSnakeCase ref.fieldName)) = false := by
          simpa using hdup
        rw [hdup2] at h
        simp only [Bool.false_eq_true, if_false] at h
        exact hstep _ rfl rfl hdup2 h
    | some tagv =>
      rw [hrt] at h
      simp only [] at h
      cases hpb : parseBool tagv with
      | none => rw [hpb] at h; cases h
      | some b =>
        rw [hpb] at h
        simp only [] at h
        by_cases hdup : (acc.any (fun o => o.Name == ToSnakeCase ref.fieldName)) = true
        · rw [if_pos hdup] at h; cases h
        · have hdup2 : (acc.any (fun o => o.Name == ToSnakeCase ref.fieldName)) = false := by
            simpa using hdup
          rw [hdup2] at h
          simp only [Bool.false_eq_true, if_false] at h
          exact hstep _ rfl rfl hdup2 h

/-- The fallback step never changes the option's name. -/
theorem envStep_name (env : String → Option String) (o : Opt) :
    (envStep env o).1.Name = o.Name := by
  rw [envStep]
  by_cases h : o.State = .FlagPassed
  · rw [if_pos h]
  · rw [if_neg h]
    cases henv : env (stringsToUpper o.Name) with
    | none => rfl
    | some v => rfl

/-- Every write of the fallback step is an environment write into this
option, and only happens when the option was not `FlagPassed`. -/
theorem envStep_writes {env : String → Option String} {o : Opt} :
    ∀ w ∈ (envStep env o).2,
      w.src = .envFallback ∧ w.name = o.Name ∧ o.State ≠ .FlagPassed := by
  rw [envStep]
  by_cases h : o.State = .FlagPassed
  · rw [if_pos h]; intro w hw; cases hw
  · rw [if_neg h]
    cases henv : env (stringsToUpper o.Name) with
    | none => intro w hw; cases hw
    | some v =>
      intro w hw
      have : w = ⟨o.Name, v, .envFallback⟩ := by simpa using hw
      subst this
      exact ⟨rfl, rfl, h⟩

/-- If the fallback step leaves an option `FlagPassed`, the option already
was. -/
theorem envStep_state_flag {env : String → Option String} {o : Opt}
    (h : (envStep env o).1.State = .FlagPassed) : o.State = .FlagPassed := by
  rw [envStep] at h
  by_cases hf : o.State = .FlagPassed
  · exact hf
  · rw [if_neg hf] at h
    cases henv : env (stringsToUpper o.Name) with
    | none => rw [henv] at h; exact absurd h hf
    | some v => rw [henv] at h; cases h

/-- Step equation of the fallback loop, written with explicit projections. -/
theorem envLoop_cons (env : String → Option String) (o : Opt) (os : List Opt) :
    envLoop env (o :: os) =
      if ((envStep env o).1.State = optState.Untouched && (envStep env o).1.Required) = true then
        ((envStep env o).1 :: os, (envStep env o).2,
          some ("opt '" ++ (envStep env o).1.Name ++ "' is required but not passed"))
      else
        ((envStep env o).1 :: (envLoop env os).1,
          (envStep env o).2 ++ (envLoop env os).2.1, (envLoop env os).2.2) := rfl

/-- Every write of the fallback loop is an environment write into a listed
option that was not `FlagPassed` when the loop reached it. -/
theorem envLoop_trace {env : String → Option String} :
    ∀ (opts : List Opt), ∀ w ∈ (envLoop env opts).2.1,
      w.src = .envFallback ∧ ∃ o ∈ opts, o.Name = w.name ∧ o.State ≠ .FlagPassed := by
  intro opts
  induction opts with
  | nil => intro w hw; cases hw
  | cons o os ih =>
    intro w hw
    rw [envLoop_cons] at hw
    by_cases hc : (((envStep env o).1.State = optState.Untouched &&
        (envStep env o).1.Required) = true)
    · rw [if_pos hc] at hw
      obtain ⟨hsrc, hname, hstate⟩ := envStep_writes w hw
      exact ⟨hsrc, o, List.mem_cons_self o os, hname.symm, hstate⟩
    · rw [if_neg hc] at hw
      rcases List.mem_append.mp hw with hw1 | hw2
      · obtain ⟨hsrc, hname, hstate⟩ := envStep_writes w hw1
        exact ⟨hsrc, o, List.mem_cons_self o os, hname.symm, hstate⟩
      · obtain ⟨hsrc, o0, ho0, hn, hs⟩ := ih w hw2
        exact ⟨hsrc, o0, List.mem_cons_of_mem o ho0, hn, hs⟩

/-- A `FlagPassed` option in the fallback loop's output stems from an
equally-named `FlagPassed` option in its input. -/
theorem envLoop_state {env : String → Option String} :
    ∀ (opts : List Opt), ∀ o' ∈ (envLoop env opts).1, o'.State = .FlagPassed →
      ∃ o ∈ opts, o.Name = o'.Name ∧ o.State = .FlagPassed := by
  intro opts
  induction opts with
  | nil => intro o' ho'; cases ho'
  | cons o os ih =>
    intro o' ho' hst
    rw [envLoop_cons] at ho'
    by_cases hc : (((envStep env o).1.State = optState.Untouched &&
        (envStep env o).1.Required) = true)
    · rw [if_pos hc] at ho'
      rcases List.mem_cons.mp ho' with rfl | hm
      · exact ⟨o, List.mem_cons_self o os,
          (envStep_name env o).symm, envStep_state_flag hst⟩
      · exact ⟨o', List.mem_cons_of_mem o hm, rfl, hst⟩
    · rw [if_neg hc] at ho'
      rcases List.mem_cons.mp ho' with rfl | hm
      · exact ⟨o, List.mem_cons_self o os,
          (envStep_name env o).symm, envStep_state_flag hst⟩
      · obtain ⟨o0, ho0, hn, hs⟩ := ih o' hm hst
        exact ⟨o0, List.mem_cons_of_mem o ho0, hn, hs⟩

/-- With pairwise distinct names, two listed options with the same name are
the same option. -/
theorem eq_of_mem_nodup_names :
    ∀ {opts : List Opt}, (opts.map Opt.Name).Nodup →
      ∀ {o1 o2 : Opt}, o1 ∈ opts → o2 ∈ opts → o1.Name = o2.Name → o1 = o2 := by
  intro opts
  induction opts with
  | nil => intro _ o1 o2 h; cases h
  | cons p os ih =>
    intro hnd o1 o2 h1 h2 hn
    rw [List.map_cons, List.nodup_cons] at hnd
    rcases List.mem_cons.mp h1 with rfl | hm1 <;> rcases List.mem_cons.mp h2 with rfl | hm2
    · rfl
    · exfalso
      apply hnd.1
      rw [hn]
      exact List.mem_map_of_mem Opt.Name hm2
    · exfalso
      apply hnd.1
      rw [← hn]
      exact List.mem_map_of_mem Opt.Name hm1
    · exact ih hnd.2 hm1 hm2 hn

/-- Sufficient condition for `noCrossWrites`. -/
theorem noCrossWrites_of (tr : List Write)
    (h : ∀ w1 ∈ tr, ∀ w2 ∈ tr, w1.src = .flagMatch → w2.src = .envFallback →
      w1.name ≠ w2.name) :
    noCrossWrites tr = true := by
  unfold noCrossWrites
  rw [List.all_eq_true]
  intro w1 hw1
  rw [List.all_eq_true]
  intro w2 hw2
  simp only [Bool.not_eq_true']
  cases hs1 : w1.src with
  | envFallback => simp [hs1]
  | flagMatch =>
    cases hs2 : w2.src with
    | flagMatch => simp [hs2]
    | envFallback =>
      have hne := h w1 hw1 w2 hw2 hs1 hs2
      simp [hne]

/-- Sufficient condition for `flagPassedNoEnv`. -/
theorem flagPassedNoEnv_of (opts : List Opt) (tr : List Write)
    (h : ∀ o ∈ opts, o.State = .FlagPassed → ∀ w ∈ tr, w.src = .envFallback →
      w.name ≠ o.Name) :
    flagPassedNoEnv opts tr = true := by
  unfold flagPassedNoEnv
  rw [List.all_eq_true]
  intro o ho
  simp only [Bool.not_eq_true']
  cases hst : o.State with
  | Untouched => simp [hst]
  | EnvPassed => simp [hst]
  | FlagPassed =>
    have hW : hasWrite tr o.Name .envFallback = false := by
      unfold hasWrite
      rw [List.any_eq_false]
      intro w hw
      cases hs : w.src with
      | flagMatch => simp [hs]
      | envFallback =>
        have hne := h o ho hst w hw hs
        simp [hne]
    simp [hW]

/-- Writes recorded only by flag parsing satisfy both trace disciplines. -/
theorem c8_parse_only {o2 : List Opt} {t2 : List Write} (htr : ParseInv o2 t2) :
    noCrossWrites t2 = true ∧ flagPassedNoEnv o2 t2 = true := by
  constructor
  · apply noCrossWrites_of
    intro w1 hw1 w2 hw2 hs1 hs2
    have h1 := (htr w2 hw2).1
    rw [hs2] at h1
    cases h1
  · apply flagPassedNoEnv_of
    intro o ho hst w hw hsrc
    have h1 := (htr w hw).1
    rw [hsrc] at h1
    cases h1

/-- The combined trace of flag parsing and environment fallback never writes
one field from both sources, and options that end `FlagPassed` got no
environment write. -/
theorem c8_core {o2 : List Opt} {t2 : List Write} (env : String → Option String)
    (hnames : (o2.map Opt.Name).Nodup) (htr : ParseInv o2 t2) :
    noCrossWrites (t2 ++ (envLoop env o2).2.1) = true ∧
    flagPassedNoEnv ((envLoop env o2).1) (t2 ++ (envLoop env o2).2.1) = true := by
  constructor
  · apply noCrossWrites_of
    intro w1 hw1 w2 hw2 hs1 hs2 hne
    have hw1t : w1 ∈ t2 := by
      rcases List.mem_append.mp hw1 with h | h
      · exact h
      · obtain ⟨hsrc, -⟩ := envLoop_trace o2 w1 h
        rw [hs1] at hsrc
        cases hsrc
    have hw2e : w2 ∈ (envLoop env o2).2.1 := by
      rcases List.mem_append.mp hw2 with h | h
      · have h1 := (htr w2 h).1
        rw [hs2] at h1
        cases h1
      · exact h
    obtain ⟨-, oa, hoa, hna, hsa⟩ := htr w1 hw1t
    obtain ⟨-, ob, hob, hnb, hsb⟩ := envLoop_trace o2 w2 hw2e
    have heq : oa = ob :=
      eq_of_mem_nodup_names hnames hoa hob (hna.trans (hne.trans hnb.symm))
    rw [heq] at hsa
    exact hsb hsa
  · apply flagPassedNoEnv_of
    intro o' ho' hst w hw hsrc hnm
    have hwE : w ∈ (envLoop env o2).2.1 := by
      rcases List.mem_append.mp hw with h | h
      · have h1 := (htr w h).1
        rw [hsrc] at h1
        cases h1
      · exact h
    obtain ⟨-, ob, hob, hnb, hsb⟩ := envLoop_trace o2 w hwE
    obtain ⟨oa, hoa, hna, hsa⟩ := envLoop_state o2 o' ho' hst
    have heq : oa = ob :=
      eq_of_mem_nodup_names hnames hoa hob (hna.trans (hnb.trans hnm).symm)
    rw [heq] at hsa
    exact hsb hsa


/-- If the fallback step leaves an option `Untouched`, the option already
was. -/
theorem envStep_untouched {env : String → Option String} {o : Opt}
    (h : (envStep env o).1.State = .Untouched) : o.State = .Untouched := by
  rw [envStep] at h
  by_cases hf : o.State = .FlagPassed
  · rw [if_pos hf] at h
    exact h
  · rw [if_neg hf] at h
    cases henv : env (stringsToUpper o.Name) with
    | none => rw [henv] at h; exact h
    | some v => rw [henv] at h; cases h

/-- The fallback loop does not change the name column. -/
theorem envLoop_names (env : String → Option String) :
    ∀ (opts : List Opt), ((envLoop env opts).1).map Opt.Name = opts.map Opt.Name := by
  intro opts
  induction opts with
  | nil => rfl
  | cons o os ih =>
    rw [envLoop_cons]
    by_cases hc : (((envStep env o).1.State = optState.Untouched &&
        (envStep env o).1.Required) = true)
    · rw [if_pos hc]
      simp [envStep_name]
    · rw [if_neg hc]
      simp [envStep_name, ih]

/-- Every output option of the fallback loop has a same-named input option,
and it can only be `Untouched` if that input option was. -/
theorem envLoop_mem {env : String → Option String} :
    ∀ (opts : List Opt), ∀ o' ∈ (envLoop env opts).1,
      ∃ o ∈ opts, o'.Name = o.Name ∧ (o'.State = .Untouched → o.State = .Untouched) := by
  intro opts
  induction opts with
  | nil => intro o' ho'; cases ho'
  | cons o os ih =>
    intro o' ho'
    rw [envLoop_cons] at ho'
    by_cases hc : (((envStep env o).1.State = optState.Untouched &&
        (envStep env o).1.Required) = true)
    · rw [if_pos hc] at ho'
      rcases List.mem_cons.mp ho' with rfl | hm
      · exact ⟨o, List.mem_cons_self o os, envStep_name env o, fun h => envStep_untouched h⟩
      · exact ⟨o', List.mem_cons_of_mem o hm, rfl, fun h => h⟩
    · rw [if_neg hc] at ho'
      rcases List.mem_cons.mp ho' with rfl | hm
      · exact ⟨o, List.mem_cons_self o os, envStep_name env o, fun h => envStep_untouched h⟩
      · obtain ⟨o0, ho0, hn, hs⟩ := ih o' hm
        exact ⟨o0, List.mem_cons_of_mem o ho0, hn, hs⟩

/-- Each write of the fallback step leaves this option `EnvPassed`. -/
theorem envStep_write_out {env : String → Option String} {o : Opt} :
    ∀ w ∈ (envStep env o).2,
      (envStep env o).1.Name = w.name ∧ (envStep env o).1.State = .EnvPassed := by
  rw [envStep]
  by_cases h : o.State = .FlagPassed
  · rw [if_pos h]; intro w hw; cases hw
  · rw [if_neg h]
    cases henv : env (stringsToUpper o.Name) with
    | none => intro w hw; cases hw
    | some v =>
      intro w hw
      have : w = ⟨o.Name, v, .envFallback⟩ := by simpa using hw
      subst this
      exact ⟨rfl, rfl⟩

/-- Every write of the fallback loop corresponds to an output option of the
same name in state `EnvPassed`. -/
theorem envLoop_write_state {env : String → Option String} :
    ∀ (opts : List Opt), ∀ w ∈ (envLoop env opts).2.1,
      ∃ o' ∈ (envLoop env opts).1, o'.Name = w.name ∧ o'.State = .EnvPassed := by
  intro opts
  induction opts with
  | nil => intro w hw; cases hw
  | cons o os ih =>
    intro w hw
    rw [envLoop_cons] at hw ⊢
    by_cases hc : (((envStep env o).1.State = optState.Untouched &&
        (envStep env o).1.Required) = true)
    · rw [if_pos hc] at hw ⊢
      obtain ⟨hn, hs⟩ := envStep_write_out w hw
      exact ⟨(envStep env o).1, List.mem_cons_self _ _, hn, hs⟩
    · rw [if_neg hc] at hw ⊢
      rcases List.mem_append.mp hw with hw1 | hw2
      · obtain ⟨hn, hs⟩ := envStep_write_out w hw1
        exact ⟨(envStep env o).1, List.mem_cons_self _ _, hn, hs⟩
      · obtain ⟨o0, ho0, hn, hs⟩ := ih w hw2
        exact ⟨o0, List.mem_cons_of_mem _ ho0, hn, hs⟩

/-- Sufficient condition for the absence of a write. -/
theorem hasWrite_false (tr : List Write) (n : String) (s : WriteSrc)
    (h : ∀ w ∈ tr, w.src = s → w.name ≠ n) : hasWrite tr n s = false := by
  unfold hasWrite
  rw [List.any_eq_false]
  intro w hw
  by_cases hws : w.src = s
  · have hne := h w hw hws
    simp [hne]
  · simp [hws]

/-- Sufficient condition for `untouchedNoWrites`. -/
theorem untouchedNoWrites_of (opts : List Opt) (tr : List Write)
    (h : ∀ o ∈ opts, o.State = .Untouched →
      hasWrite tr o.Name .flagMatch = false ∧ hasWrite tr o.Name .envFallback = false) :
    untouchedNoWrites opts tr = true := by
  unfold untouchedNoWrites
  rw [List.all_eq_true]
  intro o ho
  simp only [Bool.not_eq_true']
  cases hst : o.State with
  | FlagPassed => simp [hst]
  | EnvPassed => simp [hst]
  | Untouched =>
    obtain ⟨h1, h2⟩ := h o ho hst
    simp [h1, h2]

/-- After flag parsing alone, a still-`Untouched` option has received no
write. -/
theorem c8_untouched_parse {o2 : List Opt} {t2 : List Write}
    (hnames : (o2.map Opt.Name).Nodup) (htr : ParseInv o2 t2) :
    untouchedNoWrites o2 t2 = true := by
  apply untouchedNoWrites_of
  intro o ho hU
  constructor
  · apply hasWrite_false
    intro w hw hsrc hne
    obtain ⟨-, oF, hoF, hnF, hsF⟩ := htr w hw
    have heq : oF = o := eq_of_mem_nodup_names hnames hoF ho (hnF.trans hne)
    rw [heq, hU] at hsF
    cases hsF
  · apply hasWrite_false
    intro w hw hsrc
    have h1 := (htr w hw).1
    rw [hsrc] at h1
    cases h1

/-- After flag parsing and environment fallback, a still-`Untouched` option
has received no write. -/
theorem c8_untouched_full {o2 : List Opt} {t2 : List Write}
    (env : String → Option String)
    (hnames : (o2.map Opt.Name).Nodup) (htr : ParseInv o2 t2) :
    untouchedNoWrites ((envLoop env o2).1) (t2 ++ (envLoop env o2).2.1) = true := by
  have hnames2 : (((envLoop env o2).1).map Opt.Name).Nodup := by
    rw [envLoop_names]
    exact hnames
  apply untouchedNoWrites_of
  intro o' ho' hU
  obtain ⟨o, ho, hname, hUimp⟩ := envLoop_mem o2 o' ho'
  have hoU : o.State = .Untouched := hUimp hU
  constructor
  · apply hasWrite_false
    intro w hw hsrc hne
    have hwt : w ∈ t2 := by
      rcases List.mem_append.mp hw with h | h
      · exact h
      · obtain ⟨h2, -⟩ := envLoop_trace o2 w h
        rw [hsrc] at h2
        cases h2
    obtain ⟨-, oF, hoF, hnF, hsF⟩ := htr w hwt
    have heq : oF = o := eq_of_mem_nodup_names hnames hoF ho (hnF.trans (hne.trans hname))
    rw [heq, hoU] at hsF
    cases hsF
  · apply hasWrite_false
    intro w hw hsrc hne
    have hwe : w ∈ (envLoop env o2).2.1 := by
      rcases List.mem_append.mp hw with h | h
      · have h1 := (htr w h).1
        rw [hsrc] at h1
        cases h1
      · exact h
    obtain ⟨o'', ho'', hn'', hs''⟩ := envLoop_write_state o2 w hwe
    have heq : o'' = o' := eq_of_mem_nodup_names hnames2 ho'' ho' (hn''.trans hne)
    rw [heq, hU] at hs''
    cases hs''

/-- C8: option states only move forward during one invocation of `Cmd.Init`,
from `Untouched` to exactly one of `FlagPassed` or `EnvPassed` — for every
command, argument list and environment: no field storage is written both by a
flag match and by the environment fallback, a `FlagPassed` option never
received an environment write, and a still-`Untouched` option received no
write at all. -/
theorem C8_state_forward_no_cross (cmd : Cmd) (args : List String)
    (env : String → Option String) :
    noCrossWrites (initTrace (cmd.Init args env)) = true ∧
    flagPassedNoEnv (initOpts (cmd.Init args env)) (initTrace (cmd.Init args env)) = true ∧
    untouchedNoWrites (initOpts (cmd.Init args env)) (initTrace (cmd.Init args env)) = true := by
  rw [Cmd.Init]
  cases hopts : cmd.Opts with
  | none => exact ⟨rfl, rfl, rfl⟩
  | some rec =>
    simp only []
    cases hreg : registerOpts cmd.Name (reflectStruct rec) [] with
    | panicked m => exact ⟨rfl, rfl, rfl⟩
    | errRes m => exact ⟨rfl, rfl, rfl⟩
    | ok opts =>
      simp only []
      have hregInv := registerOpts_ok_inv cmd.Name (reflectStruct rec) [] opts hreg
        (by intro o ho; cases ho) (by simp)
      have hparse := parseLoop_main args.length args le_rfl opts []
        (by intro w hw; cases hw)
      cases hp : parseLoop opts [] args with
      | failed o2 t2 m =>
        rw [hp] at hparse
        simp only [parseOutOpts, parseOutTrace] at hparse
        have hnames : (o2.map Opt.Name).Nodup := by
          rw [hparse.1]
          exact hregInv.2
        simp only [initOpts, initTrace]
        exact ⟨(c8_parse_only hparse.2).1, (c8_parse_only hparse.2).2,
          c8_untouched_parse hnames hparse.2⟩
      | help o2 t2 =>
        rw [hp] at hparse
        simp only [parseOutOpts, parseOutTrace] at hparse
        have hnames : (o2.map Opt.Name).Nodup := by
          rw [hparse.1]
          exact hregInv.2
        simp only [initOpts, initTrace]
        exact ⟨(c8_parse_only hparse.2).1, (c8_parse_only hparse.2).2,
          c8_untouched_parse hnames hparse.2⟩
      | done o2 t2 rest =>
        rw [hp] at hparse
        simp only [parseOutOpts, parseOutTrace] at hparse
        have hnames : (o2.map Opt.Name).Nodup := by
          rw [hparse.1]
          exact hregInv.2
        have hcore := c8_core env hnames hparse.2
        have huntouched := c8_untouched_full env hnames hparse.2
        simp only []
        rw [show envLoop env o2 =
          ((envLoop env o2).1, (envLoop env o2).2.1, (envLoop env o2).2.2) from rfl]
        cases henv2 : (envLoop env o2).2.2 with
        | some m =>
          simp only [initOpts, initTrace]
          exact ⟨hcore.1, hcore.2, huntouched⟩
        | none =>
          simp only [initOpts, initTrace]
          exact ⟨hcore.1, hcore.2, huntouched⟩
